import Mathlib

/-!
Shallow embedding of the streaming technical-analysis indicators of this
repository (simple moving average, Wilder rolling moving average, true
range / average true range, directional movement index / ADX, pivot
points), together with theorems checking the specification's claims.

Conventions of the embedding:
* `rust_decimal::Decimal` values are modelled as exact rationals `ℚ`.
  The repository chose a decimal type precisely so that the arithmetic of
  the recurrences is exact; the algebra of the claims is captured by `ℚ`.
* `Decimal` division panics on a zero divisor; wherever a divisor can
  actually be zero in a reachable state the embedding uses the explicit
  fallible division `ddiv` and the surrounding operation returns
  `Option` (`none` = runtime panic).  Divisions whose divisor is a
  strictly positive count/period are written with total `ℚ` division.
* `Result<T, TaError>` is modelled as `Except TaError T`.
* Rust `&mut self` methods become state-passing functions returning the
  output together with the updated state.
-/

namespace TA

/-- The only error of the library (`ta::errors::TaError::InvalidParameter`
is the single constructor that the code ever produces). -/
inductive TaError where
  | invalidParameter
  deriving DecidableEq, Repr

/-- An OHLCV bar (`ta::DataItem`), modelled as five exact rationals.  The
validating builder is an external collaborator; the embedding treats a bar
as an opaque record of its accessors. -/
structure Bar where
  opn : ℚ
  high : ℚ
  low : ℚ
  close : ℚ
  volume : ℚ
  deriving DecidableEq, Repr

/-- `src/simple_moving_average.rs`: struct `SimpleMovingAverage`
(period, circular index, warm-up count, running sum, fixed deque). -/
structure SimpleMovingAverage where
  period : ℕ
  index : ℕ
  count : ℕ
  sum : ℚ
  deque : List ℚ
  deriving DecidableEq, Repr

namespace SimpleMovingAverage

/-- The record built by `SimpleMovingAverage::new` for a nonzero period. -/
def init (period : ℕ) : SimpleMovingAverage :=
  { period := period
    index := 0
    count := 0
    sum := 0
    deque := List.replicate period 0 }

/-- `SimpleMovingAverage::new`: fails with `InvalidParameter` iff
`period == 0`. -/
def new (period : ℕ) : Except TaError SimpleMovingAverage :=
  match period with
  | 0 => .error .invalidParameter
  | _ => .ok (init period)

/-- `<SimpleMovingAverage as Next<Decimal>>::next`.  `deque[index]` is
read with default `0`; on every state the code reaches, `index < period =
deque.length`, so the default is never used.  The division `sum / count`
is total `ℚ` division; the updated `count` is at least `1` whenever
`period > 0`. -/
def next (s : SimpleMovingAverage) (input : ℚ) : ℚ × SimpleMovingAverage :=
  let oldVal := s.deque.getD s.index 0
  let deque := s.deque.set s.index input
  let index := if s.index + 1 < s.period then s.index + 1 else 0
  let count := if s.count < s.period then s.count + 1 else s.count
  let sum := s.sum - oldVal + input
  (sum / (count : ℚ), { s with index := index, count := count, sum := sum, deque := deque })

/-- `<SimpleMovingAverage as Reset>::reset`. -/
def reset (s : SimpleMovingAverage) : SimpleMovingAverage :=
  { s with index := 0, count := 0, sum := 0, deque := List.replicate s.period 0 }

end SimpleMovingAverage

/-- `src/rolling_moving_average.rs`: struct `RollingMovingAverage`. -/
structure RollingMovingAverage where
  period : ℕ
  optCurrent : Option ℚ
  sma : SimpleMovingAverage
  noInvokes : ℕ
  deriving DecidableEq, Repr

namespace RollingMovingAverage

/-- The record built by `RollingMovingAverage::new` for a nonzero period. -/
def init (period : ℕ) : RollingMovingAverage :=
  { period := period
    optCurrent := none
    sma := SimpleMovingAverage.init period
    noInvokes := 0 }

/-- `RollingMovingAverage::new`: fails with `InvalidParameter` iff
`period == 0`. -/
def new (period : ℕ) : Except TaError RollingMovingAverage :=
  match period with
  | 0 => .error .invalidParameter
  | _ => .ok (init period)

/-- `<RollingMovingAverage as Next<Decimal>>::next`: warm-up feeds the
inner SMA; the `period`-th call seeds `opt_current` from the SMA; after
that Wilder's recurrence
`current := (current * (period - 1) + input) / period`. -/
def next (s : RollingMovingAverage) (input : ℚ) : Option ℚ × RollingMovingAverage :=
  if s.noInvokes < s.period - 1 then
    let sma := (s.sma.next input).2
    (s.optCurrent, { s with noInvokes := s.noInvokes + 1, sma := sma })
  else if s.noInvokes = s.period - 1 then
    let r := s.sma.next input
    let cur := some r.1
    (cur, { s with noInvokes := s.noInvokes + 1, sma := r.2, optCurrent := cur })
  else
    let cur := s.optCurrent.map
      (fun current => (current * ((s.period : ℚ) - 1) + input) / (s.period : ℚ))
    (cur, { s with optCurrent := cur })

/-- `<RollingMovingAverage as Reset>::reset`: clears `opt_current` and the
invocation counter and re-creates the inner SMA (`new(period).unwrap()`;
the unwrap cannot fail since the stored period is the validated one). -/
def reset (s : RollingMovingAverage) : RollingMovingAverage :=
  { s with optCurrent := none, noInvokes := 0, sma := SimpleMovingAverage.init s.period }

end RollingMovingAverage

/-- Modelled from the spec: `src/true_range.rs` is declared in
`src/lib.rs` (`mod true_range;`) but the file itself is not part of the
sources provided, so `TrueRange` is taken from spec §4.3: "Stateless
aside from remembering the previous close.  For bar t:
`TR = max(high_t - low_t, |high_t - close_{t-1}|, |low_t - close_{t-1}|)`.
For the first bar (no previous close), `TR = high_1 - low_1`." -/
structure TrueRange where
  prevClose : Option ℚ
  deriving DecidableEq, Repr

namespace TrueRange

/-- Modelled from the spec: fresh `TrueRange` with no previous close. -/
def init : TrueRange := { prevClose := none }

/-- Modelled from the spec: the true-range computation of §4.3, updating
the remembered previous close. -/
def next (s : TrueRange) (bar : Bar) : ℚ × TrueRange :=
  let tr :=
    match s.prevClose with
    | none => bar.high - bar.low
    | some pc => max (bar.high - bar.low) (max |bar.high - pc| |bar.low - pc|)
  (tr, { prevClose := some bar.close })

/-- Modelled from the spec: `reset` forgets the previous close. -/
def reset (_ : TrueRange) : TrueRange := init

end TrueRange

/-- `src/average_true_range.rs`: struct `AverageTrueRange`, a `TrueRange`
feeding a `RollingMovingAverage`. -/
structure AverageTrueRange where
  trueRange : TrueRange
  rma : RollingMovingAverage
  deriving DecidableEq, Repr

namespace AverageTrueRange

/-- The record built by `AverageTrueRange::new` for a nonzero period. -/
def init (period : ℕ) : AverageTrueRange :=
  { trueRange := TrueRange.init, rma := RollingMovingAverage.init period }

/-- `AverageTrueRange::new`: propagates `RollingMovingAverage::new`'s
validation, so fails with `InvalidParameter` iff `period == 0`. -/
def new (period : ℕ) : Except TaError AverageTrueRange :=
  match RollingMovingAverage.new period with
  | .error e => .error e
  | .ok rma => .ok { trueRange := TrueRange.init, rma := rma }

/-- `<AverageTrueRange as Next<&T>>::next`:
`self.rma.next(self.true_range.next(input))`. -/
def next (s : AverageTrueRange) (bar : Bar) : Option ℚ × AverageTrueRange :=
  let tr := s.trueRange.next bar
  let r := s.rma.next tr.1
  (r.1, { trueRange := tr.2, rma := r.2 })

/-- `<AverageTrueRange as Reset>::reset`: resets both sub-components. -/
def reset (s : AverageTrueRange) : AverageTrueRange :=
  { trueRange := s.trueRange.reset, rma := s.rma.reset }

end AverageTrueRange

/-- Generic runner: collect the outputs of a state-passing step function
over a list of inputs. -/
def streamOuts {σ α β : Type} (step : σ → α → β × σ) : σ → List α → List β
  | _, [] => []
  | s, x :: xs =>
    let r := step s x
    r.1 :: streamOuts step r.2 xs

/-- Generic runner: final state after feeding a list of inputs. -/
def streamFeed {σ α β : Type} (step : σ → α → β × σ) (s : σ) (xs : List α) : σ :=
  xs.foldl (fun s x => (step s x).2) s


/-- `src/model.rs`: struct `ADX` — the three independently-pending result
fields of the directional movement index. -/
structure ADX where
  adxOpt : Option ℚ
  diPlusOpt : Option ℚ
  diMinusOpt : Option ℚ
  deriving DecidableEq, Repr

/-- `rust_decimal` division, which panics on a zero divisor: `none`
models the panic. -/
def ddiv (a b : ℚ) : Option ℚ :=
  if b = 0 then none else some (a / b)

/-- `src/directional_movement_index.rs`: struct `DirectionalMovementIndex`. -/
structure DirectionalMovementIndex where
  period : ℕ
  dmiPlus : RollingMovingAverage
  dmiMinus : RollingMovingAverage
  adx : RollingMovingAverage
  atr : AverageTrueRange
  currentDi : Bar
  isNew : Bool
  deriving DecidableEq, Repr

/-- `empty_di()`: the all-zero `DataItem` used as the initial previous
bar. -/
def emptyDi : Bar :=
  { opn := 0, high := 0, low := 0, close := 0, volume := 0 }

namespace DirectionalMovementIndex

/-- The record built by `DirectionalMovementIndex::new` for a nonzero
period. -/
def init (period : ℕ) : DirectionalMovementIndex :=
  { period := period
    dmiPlus := RollingMovingAverage.init period
    dmiMinus := RollingMovingAverage.init period
    adx := RollingMovingAverage.init period
    atr := AverageTrueRange.init period
    currentDi := emptyDi
    isNew := true }

/-- `DirectionalMovementIndex::new`: fails with `InvalidParameter` iff
`period == 0`. -/
def new (period : ℕ) : Except TaError DirectionalMovementIndex :=
  match period with
  | 0 => .error .invalidParameter
  | _ => .ok (init period)

end DirectionalMovementIndex

/-- `rust_decimal` division mapped under an `Option`, as in
`ema_di_plus.next(dm_plus).map(|f| (f / atr_output) * dec!(100))`:
a `Some` carrying value is divided (possibly panicking), a `None`
passes through. -/
def mapDiDiv (o : Option ℚ) (atrOutput : ℚ) : Option (Option ℚ) :=
  match o with
  | none => some none
  | some f => (ddiv f atrOutput).map (fun q => some (q * 100))

/-- The non-first-call body of `get_adx_indicator`, taking the already
computed directional movements and the ATR fallback value: smooth the two
DMs, normalize by the ATR output, and when both DIs are Available compute
`DX` and feed the third RMA.  `none` models the `Decimal`
division-by-zero panics (`f / atr_output` with a zero ATR, or the
unguarded `(di_plus - di_minus) / (di_plus + di_minus)`). -/
def adxCore (dmPlus dmMinus atrOutput : ℚ)
    (emaDiPlus emaDiMinus emaDiAdx : RollingMovingAverage) :
    Option (ADX × RollingMovingAverage × RollingMovingAverage × RollingMovingAverage) :=
  let rPlus := emaDiPlus.next dmPlus
  match mapDiDiv rPlus.1 atrOutput with
  | none => none
  | some diPlusOpt =>
    let rMinus := emaDiMinus.next dmMinus
    match mapDiDiv rMinus.1 atrOutput with
    | none => none
    | some diMinusOpt =>
      match diPlusOpt, diMinusOpt with
      | some diPlus, some diMinus =>
        match ddiv (diPlus - diMinus) (diPlus + diMinus) with
        | none => none
        | some q =>
          let rAdx := emaDiAdx.next |q|
          some (⟨rAdx.1.map (fun adx => adx * 100), diPlusOpt, diMinusOpt⟩,
                rPlus.2, rMinus.2, rAdx.2)
      | _, _ =>
        some (⟨none, diPlusOpt, diMinusOpt⟩, rPlus.2, rMinus.2, emaDiAdx)

/-- `get_adx_indicator` of `src/directional_movement_index.rs`.  Takes
the three smoothing RMAs by value and returns them updated (the Rust
function takes them `&mut`). -/
def getAdxIndicator (dataItem : Bar) (atrOpt : Option ℚ)
    (prevLow prevHigh : ℚ)
    (emaDiPlus emaDiMinus emaDiAdx : RollingMovingAverage)
    (isNew : Bool) :
    Option (ADX × RollingMovingAverage × RollingMovingAverage × RollingMovingAverage) :=
  if isNew then
    some (⟨none, none, none⟩, emaDiPlus, emaDiMinus, emaDiAdx)
  else
    let upMove := dataItem.high - prevHigh
    let downMove := prevLow - dataItem.low
    let dm : ℚ × ℚ :=
      if upMove > downMove ∧ upMove > 0 then (upMove, 0)
      else if downMove > upMove ∧ downMove > 0 then (0, downMove)
      else (0, 0)
    adxCore dm.1 dm.2 (atrOpt.getD 1) emaDiPlus emaDiMinus emaDiAdx

namespace DirectionalMovementIndex

/-- `<DirectionalMovementIndex as Next<&DataItem>>::next`: feeds the ATR,
calls `get_adx_indicator` with the previous bar's low/high, clears the
first-observation flag and stores the bar.  `none` models a panic inside
`get_adx_indicator`. -/
def next (s : DirectionalMovementIndex) (di : Bar) :
    Option (ADX × DirectionalMovementIndex) :=
  let rAtr := s.atr.next di
  match getAdxIndicator di rAtr.1 s.currentDi.low s.currentDi.high
      s.dmiPlus s.dmiMinus s.adx s.isNew with
  | none => none
  | some (adx, rPlus, rMinus, rAdx) =>
    some (adx,
      { s with
        dmiPlus := rPlus
        dmiMinus := rMinus
        adx := rAdx
        atr := rAtr.2
        isNew := false
        currentDi := di })

/-- `<DirectionalMovementIndex as Reset>::reset`: resets the three RMAs
and re-arms the flag.  Note the source does NOT touch `self.atr` nor
`self.current_di`. -/
def reset (s : DirectionalMovementIndex) : DirectionalMovementIndex :=
  { s with
    adx := s.adx.reset
    dmiPlus := s.dmiPlus.reset
    dmiMinus := s.dmiMinus.reset
    isNew := true }

end DirectionalMovementIndex

/-- An operation a caller can perform on a `DirectionalMovementIndex`
after construction. -/
inductive DmiOp where
  | next (bar : Bar)
  | reset
  deriving Repr

/-- Run a list of operations; `none` once any `next` panics. -/
def dmiRun (s : DirectionalMovementIndex) : List DmiOp → Option DirectionalMovementIndex
  | [] => some s
  | .next bar :: ops =>
    match s.next bar with
    | none => none
    | some (_, s') => dmiRun s' ops
  | .reset :: ops => dmiRun s.reset ops

/-- Run a list of operations collecting the `ADX` output of each `next`;
`none` once any `next` panics. -/
def dmiRunOuts (s : DirectionalMovementIndex) : List DmiOp → Option (List ADX)
  | [] => some []
  | .next bar :: ops =>
    match s.next bar with
    | none => none
    | some (adx, s') => (dmiRunOuts s' ops).map (fun l => adx :: l)
  | .reset :: ops => dmiRunOuts s.reset ops

/-- `src/pivot/pivot_points.rs`: enum `PivotType`. -/
inductive PivotType where
  | high
  | low
  | unknown
  deriving DecidableEq, Repr

/-- `src/pivot/pivot_points.rs`: struct `Pivot`. -/
structure Pivot where
  price : ℚ
  pivotType : PivotType
  deriving DecidableEq, Repr

/-- `src/pivot/pivot_points.rs`: struct `PivotPoints`.  The `VecDeque`s
are lists with the front (oldest element) at the head. -/
structure PivotPoints where
  lookbackPeriod : ℕ
  numPivots : ℕ
  pivots : List Pivot
  bars : List Bar
  deriving DecidableEq, Repr

/-- `default_bar()`: the all-zero sentinel bar pre-filling the window. -/
def defaultBar : Bar :=
  { opn := 0, high := 0, low := 0, close := 0, volume := 0 }

/-- `find_pivot_high`: the center bar's high is returned iff the highs
are strictly increasing up to index `period` and strictly decreasing
after it; the early-`return None` loop is an `all` over the same
conditions.  Indices are in range for the window length `2*period+1`
that the caller always passes. -/
def findPivotHigh (period : ℕ) (b : List Bar) : Option ℚ :=
  if (List.range (2 * period)).all (fun i =>
      if period ≤ i then
        decide ((b.getD i defaultBar).high > (b.getD (i + 1) defaultBar).high)
      else
        decide ((b.getD i defaultBar).high < (b.getD (i + 1) defaultBar).high)) then
    some (b.getD period defaultBar).high
  else
    none

/-- `find_pivot_low`: symmetric strict rule on lows. -/
def findPivotLow (period : ℕ) (b : List Bar) : Option ℚ :=
  if (List.range (2 * period)).all (fun i =>
      if period ≤ i then
        decide ((b.getD i defaultBar).low < (b.getD (i + 1) defaultBar).low)
      else
        decide ((b.getD i defaultBar).low > (b.getD (i + 1) defaultBar).low)) then
    some (b.getD period defaultBar).low
  else
    none

namespace PivotPoints

/-- The record built by `PivotPoints::new` when it succeeds: the pivot
history pre-filled with `num_pivots` `Unknown` pivots and the window with
`2*lookback+1` sentinel bars. -/
def init (lookbackPeriod numPivots : ℕ) : PivotPoints :=
  { lookbackPeriod := lookbackPeriod
    numPivots := numPivots
    pivots := List.replicate numPivots { price := 0, pivotType := .unknown }
    bars := List.replicate (lookbackPeriod * 2 + 1) defaultBar }

/-- `PivotPoints::new`: fails with `InvalidParameter` iff both
`lookback_period` and `num_pivots` are zero. -/
def new (lookbackPeriod numPivots : ℕ) : Except TaError PivotPoints :=
  match lookbackPeriod, numPivots with
  | 0, 0 => .error .invalidParameter
  | _, _ => .ok (init lookbackPeriod numPivots)

/-- `<PivotPoints as Next<&DataItem>>::next`: slide the window
(`pop_front` then `push_back`), then on each detected pivot evict the
oldest history entry (`pop_front`) and append the new pivot
(`push_back`); the output is the updated history. -/
def next (s : PivotPoints) (input : Bar) : List Pivot × PivotPoints :=
  let bars := s.bars.drop 1 ++ [input]
  let pivots :=
    match findPivotHigh s.lookbackPeriod bars with
    | some ph => s.pivots.drop 1 ++ [{ price := ph, pivotType := .high }]
    | none => s.pivots
  let pivots :=
    match findPivotLow s.lookbackPeriod bars with
    | some pl => pivots.drop 1 ++ [{ price := pl, pivotType := .low }]
    | none => pivots
  (pivots, { s with bars := bars, pivots := pivots })

end PivotPoints

/-!  Reference (spec-side) definitions used by refinement claims. -/

/-- Reference definition from the spec's words: the unweighted arithmetic
mean of the last `min (samples seen) period` inputs. -/
def smaSpecMean (period : ℕ) (seen : List ℚ) : ℚ :=
  (seen.drop (seen.length - min seen.length period)).sum /
    ((min seen.length period : ℕ) : ℚ)

/-!  Concrete inputs used by counterexamples and witnesses. -/

/-- Short-hand bar constructor (volume fixed to 1). -/
def mkBar (o h l c : ℚ) : Bar :=
  { opn := o, high := h, low := l, close := c, volume := 1 }

/-- The literal 13-value sequence of the spec's RMA test. -/
def seq13 : List ℚ := [100, 102, 101, 103, 102, 104, 105, 106, 108, 107, 109, 110, 111]

/-- The spec's four ATR test bars `(open, high, low, close)`. -/
def atrBars : List Bar :=
  [mkBar 9.7 10 9 9.5, mkBar 9.9 10.4 9.8 10.2,
   mkBar 10.1 10.7 9.4 9.7, mkBar 9.1 9.2 8.1 8.4]

/-- A bar with positive high-low range; two of these in a row drive both
smoothed directional movements of a period-1 DMI to zero. -/
def flatBar : Bar := mkBar 5 6 4 5

/-- Bars for the DMI reset counterexample: the pre-reset history. -/
def barA1 : Bar := mkBar 95 100 90 95

/-- Bars for the DMI reset counterexample: the pre-reset history. -/
def barA2 : Bar := mkBar 105 110 100 105

/-- Bars for the DMI reset counterexample: the replayed fresh sequence. -/
def barB1 : Bar := mkBar 9 10 8 9

/-- Bars for the DMI reset counterexample: the replayed fresh sequence. -/
def barB2 : Bar := mkBar 11 12 10 11

/-- Bars for the DMI reset counterexample: the replayed fresh sequence. -/
def barB3 : Bar := mkBar 13 14 12 13

/-- A constant-price bar at 5, as the repository's pivot tests build
(the tests use one price for all five fields). -/
def barC5 : Bar := { opn := 5, high := 5, low := 5, close := 5, volume := 5 }

/-- A constant-price bar at 2. -/
def barC2 : Bar := { opn := 2, high := 2, low := 2, close := 2, volume := 2 }

/-- A rising bar following `flatBar`, giving a positive `+DM`. -/
def riseBar : Bar := mkBar 7 8 6 7

/-- The period-1 `DirectionalMovementIndex` state after one `next flatBar`
call: the ATR has absorbed one true range while the (untouched on the
first call) directional RMAs are still fresh. -/
def dmiAfterOne : DirectionalMovementIndex :=
  { period := 1
    dmiPlus := RollingMovingAverage.init 1
    dmiMinus := RollingMovingAverage.init 1
    adx := RollingMovingAverage.init 1
    atr := { trueRange := { prevClose := some 5 }
             rma := { period := 1
                      optCurrent := some 2
                      sma := { period := 1, index := 0, count := 1, sum := 2, deque := [2] }
                      noInvokes := 1 } }
    currentDi := flatBar
    isNew := false }

/-- The ADX record returned by the second `next` call of the C9 witness
run: `+DI = 200/3`, `-DI = 0`, `ADX = 100`. -/
def adxAfterTwo : ADX :=
  { adxOpt := some 100, diPlusOpt := some (200 / 3), diMinusOpt := some 0 }

/-- The period-1 `DirectionalMovementIndex` state after `flatBar` then
`riseBar`. -/
def dmiAfterTwo : DirectionalMovementIndex :=
  { period := 1
    dmiPlus := { period := 1, optCurrent := some 2
                 sma := { period := 1, index := 0, count := 1, sum := 2, deque := [2] }
                 noInvokes := 1 }
    dmiMinus := { period := 1, optCurrent := some 0
                  sma := { period := 1, index := 0, count := 1, sum := 0, deque := [0] }
                  noInvokes := 1 }
    adx := { period := 1, optCurrent := some 1
             sma := { period := 1, index := 0, count := 1, sum := 1, deque := [1] }
             noInvokes := 1 }
    atr := { trueRange := { prevClose := some 7 }
             rma := { period := 1, optCurrent := some 3
                      sma := { period := 1, index := 0, count := 1, sum := 2, deque := [2] }
                      noInvokes := 1 } }
    currentDi := riseBar
    isNew := false }

/-!  Invariants used in the proofs. -/

/-- The state of a period-`P` `SimpleMovingAverage` after the inputs `xs`
have been fed: the counters, the running sum (the sum of the last
`min |xs| P` inputs) and the contents of the circular buffer (slot
`t % P` holds `xs[t]` for the last `P` write positions, never-written
slots still hold `0`). -/
def SmaInv (P : ℕ) (xs : List ℚ) (s : SimpleMovingAverage) : Prop :=
  s.period = P ∧
  s.count = min xs.length P ∧
  s.index = xs.length % P ∧
  s.deque.length = P ∧
  s.sum = (xs.drop (xs.length - min xs.length P)).sum ∧
  (∀ t, t < xs.length → xs.length ≤ t + P → s.deque.getD (t % P) 0 = xs.getD t 0) ∧
  (∀ j, xs.length ≤ j → j < P → s.deque.getD j 0 = 0)

/-- Well-formedness of a `RollingMovingAverage` constructed with period
`P`: on every reachable state the invocation counter never exceeds the
period and the running value is present exactly once the counter has
reached the period. -/
def RmaWF (P : ℕ) (r : RollingMovingAverage) : Prop :=
  r.period = P ∧ r.noInvokes ≤ P ∧ (r.optCurrent.isSome ↔ r.noInvokes = P)

/-- Invariant of every reachable `DirectionalMovementIndex` state: the
directional RMAs and the ATR's inner RMA are well formed; on a fresh or
just-reset state the directional RMAs have seen nothing; afterwards the
ATR's RMA (fed on every call, including the first) is always at least
one input ahead of the directional RMAs (which are skipped on the first
call). -/
def DmiInv (s : DirectionalMovementIndex) : Prop :=
  0 < s.period ∧
  RmaWF s.period s.dmiPlus ∧
  RmaWF s.period s.dmiMinus ∧
  RmaWF s.period s.atr.rma ∧
  (s.isNew = true → s.dmiPlus.noInvokes = 0 ∧ s.dmiMinus.noInvokes = 0) ∧
  (s.isNew = false →
    min s.period (s.dmiPlus.noInvokes + 1) ≤ s.atr.rma.noInvokes ∧
    min s.period (s.dmiMinus.noInvokes + 1) ≤ s.atr.rma.noInvokes)

/-!  General lemmas about the runners. -/

theorem streamFeed_append {σ α β : Type} (step : σ → α → β × σ) (s : σ)
    (xs ys : List α) :
    streamFeed step s (xs ++ ys) = streamFeed step (streamFeed step s xs) ys :=
  List.foldl_append _ _ _ _

theorem streamFeed_concat {σ α β : Type} (step : σ → α → β × σ) (s : σ)
    (xs : List α) (x : α) :
    streamFeed step s (xs ++ [x]) = (step (streamFeed step s xs) x).2 := by
  rw [streamFeed_append]; rfl

theorem streamOuts_length {σ α β : Type} (step : σ → α → β × σ) (s : σ)
    (xs : List α) : (streamOuts step s xs).length = xs.length := by
  induction xs generalizing s with
  | nil => rfl
  | cons x xs ih => simp [streamOuts, ih]

/-- The `i`-th emitted output is the output of `step` applied to the state
reached after the first `i` inputs. -/
theorem streamOuts_get? {σ α β : Type} (step : σ → α → β × σ) (s : σ)
    (xs : List α) (i : ℕ) (h : i < xs.length) :
    (streamOuts step s xs).get? i =
      some ((step (streamFeed step s (xs.take i)) (xs.get ⟨i, h⟩)).1) := by
  induction xs generalizing s i with
  | nil => simp at h
  | cons x xs ih =>
    cases i with
    | zero => simp [streamOuts, streamFeed]
    | succ i =>
      simp only [List.length_cons, Nat.succ_lt_succ_iff] at h
      simpa [streamOuts, streamFeed, List.take_succ_cons] using ih _ i h

/-!  Claim theorems: concrete evaluations. -/

/-- C1: the spec claims `next` can never fail at runtime and that a zero
`+DI + -DI` denominator leaves `DX` Pending with no division performed.
The code divides unguarded: evaluated on `DirectionalMovementIndex::new(1)`
fed the same bar `(open 5, high 6, low 4, close 5)` twice, both smoothed
directional movements are `Available(0)`, the denominator `+DI + -DI` is
zero, and the second `next` call hits the `Decimal` division-by-zero
panic (`none` in the embedding). -/
theorem dmi_next_panics_on_zero_di_sum :
    dmiRun (DirectionalMovementIndex.init 1) [DmiOp.next flatBar, DmiOp.next flatBar]
      = none := by
  norm_num [flatBar, mkBar, dmiRun, DirectionalMovementIndex.init,
    DirectionalMovementIndex.next, getAdxIndicator, adxCore, mapDiDiv, ddiv, emptyDi,
    AverageTrueRange.next, AverageTrueRange.init, TrueRange.next, TrueRange.init,
    RollingMovingAverage.next, RollingMovingAverage.init,
    SimpleMovingAverage.next, SimpleMovingAverage.init, List.getD, max_def, abs]

/-- C2: the spec claims `reset` restores the exact post-construction
state, resetting the ATR sub-component as well.  The code's `reset` does
not touch `self.atr`, so replaying a sequence after a reset differs from
feeding it to a fresh instance: with period 2, after `barA1, barA2,
reset`, the outputs on `barB1, barB2, barB3` (third record:
`+DI = 640/51`) differ from a fresh instance's outputs on the same bars
(third record: `+DI = 800/11`), because the retained ATR state changes
the normalization. -/
theorem dmi_reset_keeps_atr_state :
    (dmiRunOuts (DirectionalMovementIndex.init 2)
        [DmiOp.next barA1, DmiOp.next barA2, DmiOp.reset,
         DmiOp.next barB1, DmiOp.next barB2, DmiOp.next barB3]).map
      (fun l => l.drop 2)
    ≠ dmiRunOuts (DirectionalMovementIndex.init 2)
        [DmiOp.next barB1, DmiOp.next barB2, DmiOp.next barB3] := by
  norm_num [barA1, barA2, barB1, barB2, barB3, mkBar, dmiRunOuts,
    DirectionalMovementIndex.init, DirectionalMovementIndex.next,
    DirectionalMovementIndex.reset, RollingMovingAverage.reset,
    getAdxIndicator, adxCore, mapDiDiv, ddiv, emptyDi, AverageTrueRange.next,
    AverageTrueRange.init, TrueRange.next, TrueRange.init,
    RollingMovingAverage.next, RollingMovingAverage.init,
    SimpleMovingAverage.next, SimpleMovingAverage.init, List.getD, max_def, abs]

/-- C5 counterexample: the claim says all 13 calls of
`RollingMovingAverage::new(3)` on the literal sequence return Pending;
in fact the third call is already Available (the warm-up of a period-3
RMA lasts only two calls). -/
theorem rma3_seq13_not_all_pending :
    streamOuts RollingMovingAverage.next (RollingMovingAverage.init 3) seq13
      ≠ List.replicate 13 (none : Option ℚ) := by
  norm_num [seq13, streamOuts, RollingMovingAverage.next, RollingMovingAverage.init,
    SimpleMovingAverage.next, SimpleMovingAverage.init, List.getD, List.replicate]
  intro h
  exact absurd h (by simp)

/-- C5 amended: on the literal 13-value sequence, `RollingMovingAverage::new(3)`
returns Pending for the first two calls and Available for the remaining
eleven; the third call carries the seed value `101`, the simple average
of the first three inputs. -/
theorem rma3_seq13_outputs :
    (streamOuts RollingMovingAverage.next (RollingMovingAverage.init 3) seq13).map
        Option.isSome
      = [false, false, true, true, true, true, true, true, true, true, true, true, true]
    ∧ (streamOuts RollingMovingAverage.next (RollingMovingAverage.init 3) seq13).get? 2
      = some (some 101) := by
  norm_num [seq13, streamOuts, RollingMovingAverage.next, RollingMovingAverage.init,
    SimpleMovingAverage.next, SimpleMovingAverage.init, List.getD]

/-- C6 counterexample: the claim's expected ATR values
`1.0, 0.95, 1.125, 1.3625` are those of an exponentially seeded ATR; the
code's ATR wraps a `RollingMovingAverage`, whose first two outputs are
Pending, so the produced sequence differs from the claimed one. -/
theorem atr3_not_reference_values :
    streamOuts AverageTrueRange.next (AverageTrueRange.init 3) atrBars
      ≠ [some 1, some (19/20), some (9/8), some (109/80)] := by
  norm_num [atrBars, mkBar, streamOuts, AverageTrueRange.next, AverageTrueRange.init,
    TrueRange.next, TrueRange.init, RollingMovingAverage.next, RollingMovingAverage.init,
    SimpleMovingAverage.next, SimpleMovingAverage.init, List.getD, max_def, abs]

/-- C6 amended: `AverageTrueRange::new(3)` on the four spec bars returns
Pending, Pending, `Available(16/15)`, `Available(56/45)`: the true ranges
are `1, 9/10, 13/10, 8/5` exactly as the claim's TR formula states, the
third call seeds with their period-3 simple average `16/15`, and the
fourth applies Wilder's recurrence `(16/15 * 2 + 8/5) / 3 = 56/45`. -/
theorem atr3_outputs :
    streamOuts AverageTrueRange.next (AverageTrueRange.init 3) atrBars
      = [none, none, some (16/15), some (56/45)] := by
  norm_num [atrBars, mkBar, streamOuts, AverageTrueRange.next, AverageTrueRange.init,
    TrueRange.next, TrueRange.init, RollingMovingAverage.next, RollingMovingAverage.init,
    SimpleMovingAverage.next, SimpleMovingAverage.init, List.getD, max_def, abs]

/-- C8: construction fails with `InvalidParameter` exactly when the
relevant size parameter is zero: for the SMA, RMA, ATR and DMI that is
`period == 0`, and for `PivotPoints` it is `lookback == 0 && num_pivots == 0`. -/
theorem construction_fails_iff_zero_parameter (p lb np : ℕ) :
    (SimpleMovingAverage.new p = .error .invalidParameter ↔ p = 0)
    ∧ (RollingMovingAverage.new p = .error .invalidParameter ↔ p = 0)
    ∧ (AverageTrueRange.new p = .error .invalidParameter ↔ p = 0)
    ∧ (DirectionalMovementIndex.new p = .error .invalidParameter ↔ p = 0)
    ∧ (PivotPoints.new lb np = .error .invalidParameter ↔ lb = 0 ∧ np = 0) := by
  cases p <;> cases lb <;> cases np <;>
    simp [SimpleMovingAverage.new, RollingMovingAverage.new, AverageTrueRange.new,
      DirectionalMovementIndex.new, PivotPoints.new]

/-- C3 counterexample: with `lookback = 1` (window size 3) a pivot is
detected after only two observed bars: on constant-price bars `5` then
`2`, the window `[sentinel, 5-bar, 2-bar]` passes the strict pivot-high
test (`0 < 5 > 2`), so the pivot history is modified before
`2*lookback+1 = 3` bars were observed — the single remaining zero-valued
sentinel does satisfy the strict-inequality test as the left neighbour. -/
theorem pivot_detected_after_two_bars :
    PivotPoints.new 1 1 = Except.ok
      { lookbackPeriod := 1, numPivots := 1
        pivots := [{ price := 0, pivotType := PivotType.unknown }]
        bars := [defaultBar, defaultBar, defaultBar] }
    ∧ (streamFeed PivotPoints.next
        { lookbackPeriod := 1, numPivots := 1
          pivots := [{ price := 0, pivotType := PivotType.unknown }]
          bars := [defaultBar, defaultBar, defaultBar] } [barC5, barC2]).pivots
      = [{ price := 5, pivotType := PivotType.high }]
    ∧ ([{ price := 5, pivotType := PivotType.high }] : List Pivot)
      ≠ [{ price := 0, pivotType := PivotType.unknown }] :=
  ⟨rfl, by decide, by decide⟩

/-!  Simple moving average: circular-buffer invariant. -/

theorem getD_set_ne (l : List ℚ) (i j : ℕ) (a : ℚ) (h : i ≠ j) :
    (l.set i a).getD j 0 = l.getD j 0 := by
  simp [List.getD_eq_getD_get?, List.getElem?_set_ne h]

theorem getD_set_eq (l : List ℚ) (i : ℕ) (a : ℚ) (h : i < l.length) :
    (l.set i a).getD i 0 = a := by
  simp [List.getD_eq_getD_get?, List.getElem?_set_eq_of_lt _ h]

theorem getD_append_left (xs : List ℚ) (x : ℚ) (t : ℕ) (h : t < xs.length) :
    (xs ++ [x]).getD t 0 = xs.getD t 0 := by
  simp [List.getD_eq_getD_get?, List.getElem?_append_left h]

theorem getD_append_len (xs : List ℚ) (x : ℚ) :
    (xs ++ [x]).getD xs.length 0 = x := by
  simp [List.getD_eq_getD_get?]

theorem succ_mod_eq (P n : ℕ) (hP : 0 < P) :
    (n + 1) % P = if n % P + 1 < P then n % P + 1 else 0 := by
  have hdm := Nat.div_add_mod n P
  have h1 : (n + 1) % P = (n % P + 1) % P := by
    conv_lhs => rw [show n + 1 = P * (n / P) + (n % P + 1) by omega]
    exact Nat.mul_add_mod _ _ _
  split
  · rename_i h
    rw [h1, Nat.mod_eq_of_lt h]
  · rename_i h
    have hlt := Nat.mod_lt n hP
    have hPeq : n % P + 1 = P := by omega
    rw [h1, hPeq, Nat.mod_self]

theorem smaInv_init (P : ℕ) :
    SmaInv P [] (SimpleMovingAverage.init P) := by
  refine ⟨rfl, by simp [SimpleMovingAverage.init], by simp [SimpleMovingAverage.init],
    by simp [SimpleMovingAverage.init], by simp [SimpleMovingAverage.init], ?_, ?_⟩
  · intro t ht
    simp at ht
  · intro j _ hjP
    simp [SimpleMovingAverage.init, List.getD_eq_getD_get?, List.getElem?_replicate, hjP]

theorem smaInv_next (P : ℕ) (hP : 0 < P) (xs : List ℚ) (x : ℚ)
    (s : SimpleMovingAverage) (h : SmaInv P xs s) :
    SmaInv P (xs ++ [x]) (s.next x).2 ∧ (s.next x).1 = smaSpecMean P (xs ++ [x]) := by
  obtain ⟨hper, hcnt, hidx, hlen, hsum, hslot, hzero⟩ := h
  set n := xs.length with hn
  have hmod : n % P < P := Nat.mod_lt _ hP
  have hold : s.deque.getD s.index 0 = (if n < P then 0 else xs.getD (n - P) 0) := by
    rw [hidx]
    by_cases hnP : n < P
    · rw [if_pos hnP, Nat.mod_eq_of_lt hnP]
      exact hzero n (le_refl n) hnP
    · rw [if_neg hnP]
      push_neg at hnP
      have h1 : (n - P) % P = n % P := by
        conv_rhs => rw [show n = n - P + P by omega]
        rw [Nat.add_mod_right]
      rw [← h1]
      exact hslot (n - P) (by omega) (by omega)
  have hcount' : (if s.count < s.period then s.count + 1 else s.count) = min (n + 1) P := by
    rw [hcnt, hper]
    split <;> omega
  have hindex' : (if s.index + 1 < s.period then s.index + 1 else 0) = (n + 1) % P := by
    rw [hidx, hper, succ_mod_eq P n hP]
  have hsum' : s.sum - s.deque.getD s.index 0 + x
      = ((xs ++ [x]).drop (n + 1 - min (n + 1) P)).sum := by
    rw [hold, hsum]
    by_cases hnP : n < P
    · have hmin1 : min n P = n := by omega
      have hmin2 : min (n + 1) P = n + 1 := by omega
      rw [if_pos hnP, hmin1, hmin2]
      simp [List.sum_append]
    · push_neg at hnP
      have hmin1 : min n P = P := by omega
      have hmin2 : min (n + 1) P = P := by omega
      rw [if_neg (by omega), hmin1, hmin2]
      have hdrop : (xs ++ [x]).drop (n + 1 - P) = xs.drop (n + 1 - P) ++ [x] := by
        rw [List.drop_append_eq_append_drop, show n + 1 - P - xs.length = 0 by omega]
        rfl
      have h1 : n - P < xs.length := by omega
      have hcons : xs.drop (n - P) = xs.getD (n - P) 0 :: xs.drop (n + 1 - P) := by
        rw [List.drop_eq_getElem_cons h1, List.getD_eq_getElem _ _ h1,
          show n - P + 1 = n + 1 - P by omega]
      rw [hdrop, hcons]
      simp only [List.sum_cons, List.sum_append, List.sum_singleton, List.sum_nil]
      ring
  have hlen1 : (xs ++ [x]).length = n + 1 := by simp
  constructor
  · refine ⟨hper, ?_, ?_, ?_, ?_, ?_, ?_⟩
    · simp only [SimpleMovingAverage.next, hlen1]
      exact hcount'
    · simp only [SimpleMovingAverage.next, hlen1]
      exact hindex'
    · simp only [SimpleMovingAverage.next]
      rw [List.length_set]
      exact hlen
    · simp only [SimpleMovingAverage.next, hlen1]
      rw [hsum']
    · intro t ht hbound
      rw [hlen1] at ht hbound
      simp only [SimpleMovingAverage.next]
      rcases Nat.lt_or_eq_of_le (Nat.lt_succ_iff.mp ht) with htn | htn
      · have hne : s.index ≠ t % P := by
          rw [hidx]
          intro heq
          have hdvd : P ∣ (n - t) :=
            (Nat.modEq_iff_dvd' (Nat.le_of_lt htn)).mp heq.symm
          have hge := Nat.le_of_dvd (by omega) hdvd
          omega
        rw [getD_set_ne _ _ _ _ hne, getD_append_left _ _ _ htn]
        exact hslot t htn (by omega)
      · subst htn
        rw [hidx, getD_set_eq _ _ _ (by rw [hlen]; exact hmod)]
        exact (getD_append_len xs x).symm
    · intro j hj hjP
      rw [hlen1] at hj
      simp only [SimpleMovingAverage.next]
      have hnP : n < P := by omega
      have hne : s.index ≠ j := by
        rw [hidx, Nat.mod_eq_of_lt hnP]
        omega
      rw [getD_set_ne _ _ _ _ hne]
      exact hzero j (by omega) hjP
  · simp only [SimpleMovingAverage.next, smaSpecMean, hlen1]
    rw [hcount', hsum']

/-- The circular-buffer invariant holds after feeding any input list to a
fresh SMA. -/
theorem smaFeed_inv (P : ℕ) (hP : 0 < P) (xs : List ℚ) :
    SmaInv P xs (streamFeed SimpleMovingAverage.next (SimpleMovingAverage.init P) xs) := by
  induction xs using List.reverseRecOn with
  | nil => exact smaInv_init P
  | append_singleton xs x ih =>
    rw [streamFeed_concat]
    exact (smaInv_next P hP xs x _ ih).1

/-- Every output of a fresh period-`P` SMA is the mean of the most recent
`min (samples seen) P` inputs. -/
theorem sma_outputs_spec (P : ℕ) (hP : 0 < P) (xs : List ℚ) (i : ℕ) (h : i < xs.length) :
    (streamOuts SimpleMovingAverage.next (SimpleMovingAverage.init P) xs).get? i
      = some (smaSpecMean P (xs.take (i + 1))) := by
  rw [streamOuts_get? _ _ _ i h]
  have hstep := (smaInv_next P hP (xs.take i) (xs.get ⟨i, h⟩) _
    (smaFeed_inv P hP (xs.take i))).2
  rw [hstep]
  congr 1
  rw [← List.take_concat_get xs i h, List.concat_eq_append]
  simp [List.get_eq_getElem]

/-- C7: the circular-buffer-and-running-sum implementation of
`SimpleMovingAverage::next` returns exactly the unweighted arithmetic
mean of the last `min(samples_seen, period)` inputs (the spec's reference
definition `smaSpecMean`), for every period `P > 0`, every input
sequence and every call position; in particular the first call on a
fresh instance returns exactly its input. -/
theorem sma_refines_recent_mean (P : ℕ) (hP : 0 < P) (xs : List ℚ) (i : ℕ)
    (h : i < xs.length) :
    (streamOuts SimpleMovingAverage.next (SimpleMovingAverage.init P) xs).get? i
      = some (smaSpecMean P (xs.take (i + 1)))
    ∧ ∀ x : ℚ, ((SimpleMovingAverage.init P).next x).1 = x := by
  refine ⟨sma_outputs_spec P hP xs i h, ?_⟩
  intro x
  have hx := (smaInv_next P hP [] x _ (smaInv_init P)).2
  rw [show ([] : List ℚ) ++ [x] = [x] from rfl] at hx
  rw [hx]
  simp [smaSpecMean, Nat.min_eq_left hP]

/-- C7 witness: period 3 on `[4, 5, 6, 6]` — the fourth output is the
mean `17/3` of the last three samples, and a fresh instance maps `7` to
`7`. -/
theorem sma_refines_recent_mean_witness :
    ((streamOuts SimpleMovingAverage.next (SimpleMovingAverage.init 3) [4, 5, 6, 6]).get? 3
        = some (smaSpecMean 3 ([4, 5, 6, 6].take 4)))
    ∧ ((SimpleMovingAverage.init 3).next 7).1 = 7
    ∧ smaSpecMean 3 ([4, 5, 6, 6].take 4) = 17 / 3 := by
  refine ⟨(sma_refines_recent_mean 3 (by decide) [4, 5, 6, 6] 3 (by decide)).1,
    (sma_refines_recent_mean 3 (by decide) [4, 5, 6, 6] 3 (by decide)).2 7, ?_⟩
  norm_num [smaSpecMean]

/-!  Rolling moving average: warm-up and recurrence. -/

theorem rmaNext_warm (s : RollingMovingAverage) (x : ℚ)
    (h : s.noInvokes < s.period - 1) :
    s.next x = (s.optCurrent,
      { s with
        noInvokes := s.noInvokes + 1
        sma := (s.sma.next x).2 }) := by
  unfold RollingMovingAverage.next
  rw [if_pos h]

theorem rmaNext_seed (s : RollingMovingAverage) (x : ℚ)
    (h : s.noInvokes = s.period - 1) :
    s.next x = (some (s.sma.next x).1,
      { s with
        noInvokes := s.noInvokes + 1
        sma := (s.sma.next x).2
        optCurrent := some (s.sma.next x).1 }) := by
  unfold RollingMovingAverage.next
  rw [if_neg (by rw [h]; exact lt_irrefl _), if_pos h]

theorem rmaNext_done (s : RollingMovingAverage) (x : ℚ)
    (h : s.period ≤ s.noInvokes) (hP : 0 < s.period) :
    s.next x = (s.optCurrent.map
        (fun current => (current * ((s.period : ℚ) - 1) + x) / (s.period : ℚ)),
      { s with
        optCurrent := s.optCurrent.map
          (fun current => (current * ((s.period : ℚ) - 1) + x) / (s.period : ℚ)) }) := by
  unfold RollingMovingAverage.next
  rw [if_neg (by omega), if_neg (by omega)]

theorem rmaNext_fst (s : RollingMovingAverage) (x : ℚ) :
    (s.next x).1 = (s.next x).2.optCurrent := by
  unfold RollingMovingAverage.next
  split
  · rfl
  · split
    · rfl
    · rfl

/-- State of a fresh period-`P` RMA after feeding `xs`: the period is
preserved; while fewer than `P` inputs were seen the counter equals the
number of inputs, the running value is absent and the inner SMA has seen
exactly the same inputs; from the `P`-th input on the counter is pegged
at `P` and the running value is present. -/
theorem rmaFeed_state (P : ℕ) (hP : 0 < P) (xs : List ℚ) :
    (streamFeed RollingMovingAverage.next (RollingMovingAverage.init P) xs).period = P
    ∧ (xs.length < P →
        (streamFeed RollingMovingAverage.next (RollingMovingAverage.init P) xs).noInvokes
            = xs.length
        ∧ (streamFeed RollingMovingAverage.next (RollingMovingAverage.init P) xs).optCurrent
            = none
        ∧ (streamFeed RollingMovingAverage.next (RollingMovingAverage.init P) xs).sma
            = streamFeed SimpleMovingAverage.next (SimpleMovingAverage.init P) xs)
    ∧ (P ≤ xs.length →
        (streamFeed RollingMovingAverage.next (RollingMovingAverage.init P) xs).noInvokes = P
        ∧ ((streamFeed RollingMovingAverage.next
              (RollingMovingAverage.init P) xs).optCurrent).isSome) := by
  induction xs using List.reverseRecOn with
  | nil =>
    refine ⟨rfl, fun _ => ⟨rfl, rfl, rfl⟩, fun h => ?_⟩
    simp at h
    omega
  | append_singleton xs x ih =>
    obtain ⟨hper, hwarm, hdone⟩ := ih
    rw [streamFeed_concat, streamFeed_concat]
    simp only [List.length_append, List.length_singleton]
    by_cases hc : xs.length + 1 < P
    · obtain ⟨hni, hoc, hsma⟩ := hwarm (by omega)
      have hb : (streamFeed RollingMovingAverage.next
          (RollingMovingAverage.init P) xs).noInvokes
          < (streamFeed RollingMovingAverage.next
            (RollingMovingAverage.init P) xs).period - 1 := by
        rw [hni, hper]
        omega
      rw [rmaNext_warm _ _ hb]
      dsimp only
      exact ⟨hper, fun _ => ⟨by rw [hni], hoc, by rw [hsma]⟩,
        fun h => absurd h (by omega)⟩
    · by_cases hc2 : xs.length + 1 = P
      · obtain ⟨hni, hoc, hsma⟩ := hwarm (by omega)
        have hb : (streamFeed RollingMovingAverage.next
            (RollingMovingAverage.init P) xs).noInvokes
            = (streamFeed RollingMovingAverage.next
              (RollingMovingAverage.init P) xs).period - 1 := by
          rw [hni, hper]
          omega
        rw [rmaNext_seed _ _ hb]
        dsimp only
        refine ⟨hper, fun h => absurd h (by omega), fun _ => ⟨?_, rfl⟩⟩
        rw [hni]
        exact hc2
      · obtain ⟨hni, hoc⟩ := hdone (by omega)
        have hb : (streamFeed RollingMovingAverage.next
            (RollingMovingAverage.init P) xs).period
            ≤ (streamFeed RollingMovingAverage.next
              (RollingMovingAverage.init P) xs).noInvokes := by
          rw [hni, hper]
        rw [rmaNext_done _ _ hb (by rw [hper]; exact hP)]
        dsimp only
        refine ⟨hper, fun h => absurd h (by omega), fun _ => ⟨hni, ?_⟩⟩
        rw [Option.isSome_map']
        exact hoc

/-- C4: for every period `P > 0` and input sequence, the period-`P` RMA
returns Pending on the first `P-1` calls, seeds on the `P`-th call with
the simple average of the first `P` inputs, and afterwards satisfies
Wilder's recurrence `current_t = (current_{t-1} * (P - 1) + x_t) / P`,
returned as Available. -/
theorem rma_warmup_seed_recurrence (P : ℕ) (hP : 0 < P) (xs : List ℚ) :
    (∀ i, i < xs.length → i + 1 < P →
      (streamOuts RollingMovingAverage.next (RollingMovingAverage.init P) xs).get? i
        = some none)
    ∧ (P - 1 < xs.length →
      (streamOuts RollingMovingAverage.next (RollingMovingAverage.init P) xs).get? (P - 1)
        = some (some ((xs.take P).sum / (P : ℚ))))
    ∧ (∀ i, i < xs.length → P ≤ i → ∃ v,
      (streamOuts RollingMovingAverage.next (RollingMovingAverage.init P) xs).get? (i - 1)
        = some (some v)
      ∧ (streamOuts RollingMovingAverage.next (RollingMovingAverage.init P) xs).get? i
        = some (some ((v * ((P : ℚ) - 1) + xs.getD i 0) / (P : ℚ)))) := by
  refine ⟨?_, ?_, ?_⟩
  · intro i hi hiP
    rw [streamOuts_get? _ _ _ i hi]
    obtain ⟨hper, hwarm, _⟩ := rmaFeed_state P hP (xs.take i)
    have hlen : (xs.take i).length = i := by
      rw [List.length_take]
      omega
    obtain ⟨hni, hoc, _⟩ := hwarm (by omega)
    have hb : (streamFeed RollingMovingAverage.next
        (RollingMovingAverage.init P) (xs.take i)).noInvokes
        < (streamFeed RollingMovingAverage.next
          (RollingMovingAverage.init P) (xs.take i)).period - 1 := by
      rw [hni, hlen, hper]
      omega
    rw [rmaNext_warm _ _ hb]
    dsimp only
    rw [hoc]
  · intro hPlen
    rw [streamOuts_get? _ _ _ _ hPlen]
    obtain ⟨hper, hwarm, _⟩ := rmaFeed_state P hP (xs.take (P - 1))
    have hlen : (xs.take (P - 1)).length = P - 1 := by
      rw [List.length_take]
      omega
    obtain ⟨hni, hoc, hsma⟩ := hwarm (by omega)
    have hb : (streamFeed RollingMovingAverage.next
        (RollingMovingAverage.init P) (xs.take (P - 1))).noInvokes
        = (streamFeed RollingMovingAverage.next
          (RollingMovingAverage.init P) (xs.take (P - 1))).period - 1 := by
      rw [hni, hlen, hper]
    rw [rmaNext_seed _ _ hb]
    dsimp only
    rw [hsma]
    have hval := (smaInv_next P hP (xs.take (P - 1)) (xs.get ⟨P - 1, hPlen⟩) _
      (smaFeed_inv P hP (xs.take (P - 1)))).2
    rw [hval]
    have hTP : xs.take (P - 1) ++ [xs.get ⟨P - 1, hPlen⟩] = xs.take P := by
      conv_rhs => rw [show P = P - 1 + 1 by omega, ← List.take_concat_get xs (P - 1) hPlen]
      simp [List.concat_eq_append, List.get_eq_getElem]
    rw [hTP]
    have hlenP : (xs.take P).length = P := by
      rw [List.length_take]
      omega
    simp [smaSpecMean, hlenP]
  · intro i hi hiP
    have hi1 : i - 1 < xs.length := by omega
    rw [streamOuts_get? _ _ _ (i - 1) hi1, streamOuts_get? _ _ _ i hi]
    obtain ⟨hperi, _, hdonei⟩ := rmaFeed_state P hP (xs.take i)
    have hleni : (xs.take i).length = i := by
      rw [List.length_take]
      omega
    obtain ⟨hnii, hoci⟩ := hdonei (by omega)
    obtain ⟨v, hv⟩ := Option.isSome_iff_exists.mp hoci
    have hstep : streamFeed RollingMovingAverage.next (RollingMovingAverage.init P) (xs.take i)
        = ((streamFeed RollingMovingAverage.next (RollingMovingAverage.init P)
            (xs.take (i - 1))).next (xs.get ⟨i - 1, hi1⟩)).2 := by
      rw [← streamFeed_concat]
      congr 1
      conv_lhs => rw [show i = i - 1 + 1 by omega, ← List.take_concat_get xs (i - 1) hi1]
      simp [List.concat_eq_append, List.get_eq_getElem]
    refine ⟨v, ?_, ?_⟩
    · rw [rmaNext_fst, ← hstep, hv]
    · have hb : (streamFeed RollingMovingAverage.next
          (RollingMovingAverage.init P) (xs.take i)).period
          ≤ (streamFeed RollingMovingAverage.next
            (RollingMovingAverage.init P) (xs.take i)).noInvokes := by
        rw [hnii, hperi]
      rw [rmaNext_done _ _ hb (by rw [hperi]; exact hP)]
      dsimp only
      rw [hv, Option.map_some', hperi]
      have hgd : xs.getD i 0 = xs.get ⟨i, hi⟩ := by
        rw [List.getD_eq_getElem _ _ hi]
        simp [List.get_eq_getElem]
      rw [hgd]

/-- C4 witness: period 3 on the literal 13-value sequence — the first
call is Pending, the third call seeds with the average of the first
three inputs, and the fourth call follows the recurrence from the
third. -/
theorem rma_warmup_seed_recurrence_witness :
    ((streamOuts RollingMovingAverage.next (RollingMovingAverage.init 3) seq13).get? 0
        = some none)
    ∧ ((streamOuts RollingMovingAverage.next (RollingMovingAverage.init 3) seq13).get? 2
        = some (some ((seq13.take 3).sum / (3 : ℚ))))
    ∧ (∃ v, (streamOuts RollingMovingAverage.next (RollingMovingAverage.init 3) seq13).get? 2
        = some (some v)
      ∧ (streamOuts RollingMovingAverage.next (RollingMovingAverage.init 3) seq13).get? 3
        = some (some ((v * ((3 : ℚ) - 1) + seq13.getD 3 0) / (3 : ℚ)))) :=
  ⟨(rma_warmup_seed_recurrence 3 (by decide) seq13).1 0 (by decide) (by decide),
   (rma_warmup_seed_recurrence 3 (by decide) seq13).2.1 (by decide),
   (rma_warmup_seed_recurrence 3 (by decide) seq13).2.2 3 (by decide) (by decide)⟩

/-!  Pivot points: sentinel window lemmas. -/

theorem findPivotHigh_sentinel (p : ℕ) (hp : 0 < p) (l : List Bar) :
    findPivotHigh p (defaultBar :: defaultBar :: l) = none := by
  unfold findPivotHigh
  rw [if_neg]
  intro hall
  have h0 := List.all_eq_true.mp hall 0 (List.mem_range.mpr (by omega))
  rw [if_neg (by omega : ¬ p ≤ 0), decide_eq_true_eq] at h0
  simp [defaultBar] at h0

theorem findPivotLow_sentinel (p : ℕ) (hp : 0 < p) (l : List Bar) :
    findPivotLow p (defaultBar :: defaultBar :: l) = none := by
  unfold findPivotLow
  rw [if_neg]
  intro hall
  have h0 := List.all_eq_true.mp hall 0 (List.mem_range.mpr (by omega))
  rw [if_neg (by omega : ¬ p ≤ 0), decide_eq_true_eq] at h0
  simp [defaultBar] at h0

/-- While strictly fewer than `2*lookback` bars have been fed, the
window still starts with at least two sentinel bars, so every pivot test
fails and the pivot history stays in its post-construction state. -/
theorem pivotFeed_state (p np : ℕ) (hp : 0 < p) (bars : List Bar)
    (hlen : bars.length < 2 * p) :
    streamFeed PivotPoints.next (PivotPoints.init p np) bars
      = { PivotPoints.init p np with
          bars := List.replicate (p * 2 + 1 - bars.length) defaultBar ++ bars } := by
  induction bars using List.reverseRecOn with
  | nil =>
    show PivotPoints.init p np = _
    simp [PivotPoints.init]
  | append_singleton bs b ih =>
    have hlen' : (bs ++ [b]).length = bs.length + 1 := by simp
    rw [hlen'] at hlen
    have hbs : bs.length < 2 * p := by omega
    rw [streamFeed_concat, ih hbs]
    obtain ⟨k, hk⟩ : ∃ k, p * 2 + 1 - bs.length = k + 3 :=
      ⟨p * 2 - 2 - bs.length, by omega⟩
    unfold PivotPoints.next
    rw [hk]
    have hwin : (List.replicate (k + 3) defaultBar ++ bs).drop 1 ++ [b]
        = defaultBar :: defaultBar :: (List.replicate k defaultBar ++ (bs ++ [b])) := by
      rw [List.replicate_succ, List.cons_append, List.drop_succ_cons, List.drop_zero,
        List.replicate_succ, List.replicate_succ]
      simp
    dsimp only
    rw [hwin]
    dsimp only [PivotPoints.init]
    rw [findPivotHigh_sentinel p hp _, findPivotLow_sentinel p hp _]
    dsimp only
    rw [hlen', show p * 2 + 1 - (bs.length + 1) = k + 2 by omega]
    rw [show (List.replicate (k + 2) defaultBar ++ (bs ++ [b]))
        = defaultBar :: defaultBar :: (List.replicate k defaultBar ++ (bs ++ [b])) by
      rw [List.replicate_succ, List.replicate_succ]
      simp]

/-- C3 amended: with `lookback = p > 0`, the pivot history is never
modified before `2*lookback` bars have been observed (at every earlier
call the window still holds at least two zero-valued sentinel bars at
its front, and two equal sentinels can never satisfy a strict
inequality); the claim's bound `2*lookback+1` is wrong, since on the
`2*lookback`-th bar the single remaining sentinel can sit strictly below
an increasing prefix of real bars and a pivot high can be detected. -/
theorem no_pivot_before_twice_lookback (p np : ℕ) (hp : 0 < p) (bars : List Bar)
    (hlen : bars.length < 2 * p) :
    PivotPoints.new p np = Except.ok (PivotPoints.init p np)
    ∧ (streamFeed PivotPoints.next (PivotPoints.init p np) bars).pivots
        = (PivotPoints.init p np).pivots := by
  constructor
  · cases p with
    | zero => omega
    | succ m => rfl
  · rw [pivotFeed_state p np hp bars hlen]

/-- C3 amended witness: lookback 1, one observed bar — the history is
still the initial one. -/
theorem no_pivot_before_twice_lookback_witness :
    (PivotPoints.new 1 1 = Except.ok (PivotPoints.init 1 1))
    ∧ (streamFeed PivotPoints.next (PivotPoints.init 1 1) [barC5]).pivots
        = (PivotPoints.init 1 1).pivots :=
  no_pivot_before_twice_lookback 1 1 (by decide) [barC5] (by decide)

/-- C10: `PivotPoints::new(0, n)` succeeds for every `n > 0`, and with
`lookback_period = 0` the strict-extremum loops are vacuous, so every
single `next` call records the incoming bar twice — first as a pivot
high at its high price, then as a pivot low at its low price — each time
evicting the oldest element of the pivot history. -/
theorem lookback_zero_always_pivots (n : ℕ) (hn : 0 < n) (s : PivotPoints) (bar : Bar)
    (hlb : s.lookbackPeriod = 0) (hbars : s.bars.length = 1) :
    PivotPoints.new 0 n = Except.ok (PivotPoints.init 0 n)
    ∧ findPivotHigh 0 (s.bars.drop 1 ++ [bar]) = some bar.high
    ∧ findPivotLow 0 (s.bars.drop 1 ++ [bar]) = some bar.low
    ∧ s.next bar
      = ((s.pivots.drop 1 ++ [({ price := bar.high, pivotType := PivotType.high } : Pivot)]).drop 1
            ++ [({ price := bar.low, pivotType := PivotType.low } : Pivot)],
        { s with
          bars := [bar]
          pivots := (s.pivots.drop 1
              ++ [({ price := bar.high, pivotType := PivotType.high } : Pivot)]).drop 1
            ++ [({ price := bar.low, pivotType := PivotType.low } : Pivot)] }) := by
  obtain ⟨a, ha⟩ := List.length_eq_one.mp hbars
  have hwin : s.bars.drop 1 ++ [bar] = [bar] := by
    rw [ha]
    rfl
  have hhigh : findPivotHigh 0 [bar] = some bar.high := by
    simp [findPivotHigh]
  have hlow : findPivotLow 0 [bar] = some bar.low := by
    simp [findPivotLow]
  refine ⟨?_, by rw [hwin]; exact hhigh, by rw [hwin]; exact hlow, ?_⟩
  · cases n with
    | zero => omega
    | succ m => rfl
  · simp only [PivotPoints.next, hlb, hwin, hhigh, hlow]

/-- C10 witness: `new(0, 1)` and one call on the freshly constructed
state, with the concrete constant-price bar at 5. -/
theorem lookback_zero_always_pivots_witness :
    (PivotPoints.new 0 1 = Except.ok (PivotPoints.init 0 1))
    ∧ findPivotHigh 0 ((PivotPoints.init 0 1).bars.drop 1 ++ [barC5]) = some barC5.high
    ∧ findPivotLow 0 ((PivotPoints.init 0 1).bars.drop 1 ++ [barC5]) = some barC5.low
    ∧ (PivotPoints.init 0 1).next barC5
      = (((PivotPoints.init 0 1).pivots.drop 1
            ++ [({ price := barC5.high, pivotType := PivotType.high } : Pivot)]).drop 1
            ++ [({ price := barC5.low, pivotType := PivotType.low } : Pivot)],
        { PivotPoints.init 0 1 with
          bars := [barC5]
          pivots := ((PivotPoints.init 0 1).pivots.drop 1
              ++ [({ price := barC5.high, pivotType := PivotType.high } : Pivot)]).drop 1
            ++ [({ price := barC5.low, pivotType := PivotType.low } : Pivot)] }) :=
  lookback_zero_always_pivots 1 (by decide) (PivotPoints.init 0 1) barC5 rfl rfl

/-!  Directional movement index: ATR-ahead-of-DI invariant. -/

theorem rmaWF_init (P : ℕ) (hP : 0 < P) : RmaWF P (RollingMovingAverage.init P) := by
  refine ⟨rfl, Nat.zero_le _, ?_⟩
  simp [RollingMovingAverage.init]
  omega

theorem rmaWF_reset (P : ℕ) (hP : 0 < P) (r : RollingMovingAverage) (h : RmaWF P r) :
    RmaWF P r.reset := by
  refine ⟨h.1, Nat.zero_le _, ?_⟩
  simp [RollingMovingAverage.reset]
  omega

theorem rmaWF_next (P : ℕ) (hP : 0 < P) (r : RollingMovingAverage) (x : ℚ)
    (h : RmaWF P r) :
    RmaWF P (r.next x).2 ∧ (r.next x).2.noInvokes = min P (r.noInvokes + 1) := by
  obtain ⟨hper, hle, hiff⟩ := h
  by_cases h1 : r.noInvokes < r.period - 1
  · rw [rmaNext_warm _ _ h1]
    rw [hper] at h1
    refine ⟨⟨hper, show r.noInvokes + 1 ≤ P by omega,
      show r.optCurrent.isSome ↔ r.noInvokes + 1 = P from ?_⟩,
      show r.noInvokes + 1 = min P (r.noInvokes + 1) by omega⟩
    rw [hiff]
    omega
  · by_cases h2 : r.noInvokes = r.period - 1
    · rw [rmaNext_seed _ _ h2]
      rw [hper] at h2
      refine ⟨⟨hper, show r.noInvokes + 1 ≤ P by omega,
        show (some ((r.sma.next x).1)).isSome ↔ r.noInvokes + 1 = P from ?_⟩,
        show r.noInvokes + 1 = min P (r.noInvokes + 1) by omega⟩
      simp
      omega
    · have h3 : r.period ≤ r.noInvokes := by omega
      rw [rmaNext_done _ _ h3 (by rw [hper]; exact hP)]
      rw [hper] at h3
      refine ⟨⟨hper, hle,
        show (r.optCurrent.map
          (fun current => (current * ((r.period : ℚ) - 1) + x) / (r.period : ℚ))).isSome
          ↔ r.noInvokes = P from ?_⟩,
        show r.noInvokes = min P (r.noInvokes + 1) by omega⟩
      rw [Option.isSome_map']
      exact hiff

theorem mapDiDiv_isSome (o : Option ℚ) (a : ℚ) (r : Option ℚ)
    (h : mapDiDiv o a = some r) : r.isSome → o.isSome := by
  cases o with
  | none =>
    simp [mapDiDiv] at h
    subst h
    simp
  | some f =>
    intro _
    rfl

/-- Shape of a successful `adxCore` call: both directional RMAs are
advanced exactly once, and a returned Available DI implies the
corresponding RMA output was Available. -/
theorem adxCore_shape (dmp dmm a : ℚ) (rp rm ra : RollingMovingAverage)
    (adx : ADX) (rp' rm' ra' : RollingMovingAverage)
    (h : adxCore dmp dmm a rp rm ra = some (adx, rp', rm', ra')) :
    rp' = (rp.next dmp).2 ∧ rm' = (rm.next dmm).2
    ∧ (adx.diPlusOpt.isSome → ((rp.next dmp).1).isSome)
    ∧ (adx.diMinusOpt.isSome → ((rm.next dmm).1).isSome) := by
  unfold adxCore at h
  dsimp only at h
  rcases hm1 : mapDiDiv (rp.next dmp).1 a with _ | dpo
  · rw [hm1] at h
    cases h
  · rw [hm1] at h
    dsimp only at h
    rcases hm2 : mapDiDiv (rm.next dmm).1 a with _ | dmo
    · rw [hm2] at h
      cases h
    · rw [hm2] at h
      dsimp only at h
      cases dpo with
      | none =>
        cases dmo with
        | none =>
          simp only [Option.some.injEq, Prod.mk.injEq] at h
          obtain ⟨ha, h1, h2, h3⟩ := h
          subst ha h1 h2
          exact ⟨rfl, rfl, by simp, by simp⟩
        | some dmn =>
          simp only [Option.some.injEq, Prod.mk.injEq] at h
          obtain ⟨ha, h1, h2, h3⟩ := h
          subst ha h1 h2
          exact ⟨rfl, rfl, by simp, fun _ => mapDiDiv_isSome _ _ _ hm2 (by simp)⟩
      | some dp =>
        cases dmo with
        | none =>
          simp only [Option.some.injEq, Prod.mk.injEq] at h
          obtain ⟨ha, h1, h2, h3⟩ := h
          subst ha h1 h2
          exact ⟨rfl, rfl, fun _ => mapDiDiv_isSome _ _ _ hm1 (by simp), by simp⟩
        | some dmn =>
          simp only at h
          rcases hd : ddiv (dp - dmn) (dp + dmn) with _ | q
          · rw [hd] at h
            simp at h
          · rw [hd] at h
            simp only [Option.some.injEq, Prod.mk.injEq] at h
            obtain ⟨ha, h1, h2, h3⟩ := h
            subst ha h1 h2
            exact ⟨rfl, rfl, fun _ => mapDiDiv_isSome _ _ _ hm1 (by simp),
              fun _ => mapDiDiv_isSome _ _ _ hm2 (by simp)⟩

theorem getAdxIndicator_isNew (bar : Bar) (atrOpt : Option ℚ) (pl ph : ℚ)
    (rp rm ra : RollingMovingAverage) :
    getAdxIndicator bar atrOpt pl ph rp rm ra true
      = some (⟨none, none, none⟩, rp, rm, ra) := rfl

theorem getAdxIndicator_false (bar : Bar) (atrOpt : Option ℚ) (pl ph : ℚ)
    (rp rm ra : RollingMovingAverage) :
    ∃ dmp dmm : ℚ, getAdxIndicator bar atrOpt pl ph rp rm ra false
      = adxCore dmp dmm (atrOpt.getD 1) rp rm ra := by
  unfold getAdxIndicator
  rw [if_neg Bool.false_ne_true]
  exact ⟨_, _, rfl⟩

/-- Everything `DirectionalMovementIndex::next` does on a successful
call: the ATR is advanced by the bar, the flag is cleared, the bar is
stored, and the three RMAs are whatever `get_adx_indicator` returned. -/
theorem dmiNext_some (s : DirectionalMovementIndex) (bar : Bar) (adx : ADX)
    (s' : DirectionalMovementIndex) (h : s.next bar = some (adx, s')) :
    s'.atr = (s.atr.next bar).2
    ∧ s'.period = s.period
    ∧ s'.isNew = false
    ∧ getAdxIndicator bar ((s.atr.next bar).1) s.currentDi.low s.currentDi.high
        s.dmiPlus s.dmiMinus s.adx s.isNew = some (adx, s'.dmiPlus, s'.dmiMinus, s'.adx) := by
  unfold DirectionalMovementIndex.next at h
  dsimp only at h
  rcases hg : getAdxIndicator bar ((s.atr.next bar).1) s.currentDi.low s.currentDi.high
      s.dmiPlus s.dmiMinus s.adx s.isNew with _ | t
  · rw [hg] at h
    simp at h
  · obtain ⟨a, rp, rm, ra⟩ := t
    rw [hg] at h
    simp only [Option.some.injEq, Prod.mk.injEq] at h
    obtain ⟨ha, hs⟩ := h
    subst ha
    subst hs
    exact ⟨rfl, rfl, rfl, rfl⟩

theorem dmiInv_init (P : ℕ) (hP : 0 < P) : DmiInv (DirectionalMovementIndex.init P) := by
  refine ⟨hP, rmaWF_init P hP, rmaWF_init P hP, rmaWF_init P hP,
    fun _ => ⟨rfl, rfl⟩, fun hq => ?_⟩
  simp [DirectionalMovementIndex.init] at hq

theorem dmiInv_reset (s : DirectionalMovementIndex) (h : DmiInv s) : DmiInv s.reset := by
  obtain ⟨hP, hp, hm, hatr, _, _⟩ := h
  refine ⟨hP, rmaWF_reset _ hP _ hp, rmaWF_reset _ hP _ hm, hatr,
    fun _ => ⟨rfl, rfl⟩, fun hq => ?_⟩
  simp [DirectionalMovementIndex.reset] at hq

theorem dmiInv_next (s : DirectionalMovementIndex) (bar : Bar) (adx : ADX)
    (s' : DirectionalMovementIndex) (hInv : DmiInv s) (h : s.next bar = some (adx, s')) :
    DmiInv s' := by
  obtain ⟨hP, hp, hm, hatr, hnew, hold⟩ := hInv
  obtain ⟨hatr', hper', hisnew', hg⟩ := dmiNext_some s bar adx s' h
  have hatrn := rmaWF_next s.period hP s.atr.rma ((s.atr.trueRange.next bar).1) hatr
  have hatrrma : s'.atr.rma = (s.atr.rma.next ((s.atr.trueRange.next bar).1)).2 := by
    rw [hatr']
    rfl
  cases hsnew : s.isNew with
  | true =>
    rw [hsnew, getAdxIndicator_isNew] at hg
    simp only [Option.some.injEq, Prod.mk.injEq] at hg
    obtain ⟨hadx, hdp, hdm, hda⟩ := hg
    obtain ⟨hc1, hc2⟩ := hnew hsnew
    refine ⟨by rw [hper']; exact hP, ?_, ?_, ?_,
      fun hq => by rw [hisnew'] at hq; simp at hq, fun _ => ⟨?_, ?_⟩⟩
    · rw [hper', ← hdp]
      exact hp
    · rw [hper', ← hdm]
      exact hm
    · rw [hper', hatrrma]
      exact hatrn.1
    · rw [hper', ← hdp, hc1, hatrrma, hatrn.2]
      omega
    · rw [hper', ← hdm, hc2, hatrrma, hatrn.2]
      omega
  | false =>
    rw [hsnew] at hg
    obtain ⟨dmp0, dmm0, hgf⟩ := getAdxIndicator_false bar ((s.atr.next bar).1)
      s.currentDi.low s.currentDi.high s.dmiPlus s.dmiMinus s.adx
    rw [hgf] at hg
    obtain ⟨hdp, hdm, hip, him⟩ := adxCore_shape _ _ _ _ _ _ _ _ _ _ hg
    have hpn := rmaWF_next s.period hP s.dmiPlus dmp0 hp
    have hmn := rmaWF_next s.period hP s.dmiMinus dmm0 hm
    obtain ⟨hrel1, hrel2⟩ := hold hsnew
    refine ⟨by rw [hper']; exact hP, ?_, ?_, ?_,
      fun hq => by rw [hisnew'] at hq; simp at hq, fun _ => ⟨?_, ?_⟩⟩
    · rw [hper', hdp]
      exact hpn.1
    · rw [hper', hdm]
      exact hmn.1
    · rw [hper', hatrrma]
      exact hatrn.1
    · rw [hper', hdp, hatrrma, hpn.2, hatrn.2]
      omega
    · rw [hper', hdm, hatrrma, hmn.2, hatrn.2]
      omega

/-- The invariant holds at every state a run of operations can reach. -/
theorem dmiRun_inv (ops : List DmiOp) (s0 s : DirectionalMovementIndex)
    (h0 : DmiInv s0) (h : dmiRun s0 ops = some s) : DmiInv s := by
  induction ops generalizing s0 with
  | nil =>
    simp [dmiRun] at h
    exact h ▸ h0
  | cons op ops ih =>
    cases op with
    | next bar =>
      unfold dmiRun at h
      rcases hn : s0.next bar with _ | r
      · rw [hn] at h
        simp at h
      · obtain ⟨adx, s1⟩ := r
        rw [hn] at h
        exact ih s1 (dmiInv_next s0 bar adx s1 h0 hn) h
    | reset =>
      unfold dmiRun at h
      exact ih s0.reset (dmiInv_reset s0 h0) h

/-- C9: in every state of `DirectionalMovementIndex` reachable through
`new`, `next` and `reset`, whenever a `next` call returns an Available
`+DI` or `-DI` value, the ATR sub-component's output for that same call
was also Available — the ATR's RMA is fed on every call (including the
first, which skips the directional RMAs), `reset` re-arms the flag while
leaving the ATR even further ahead, so the `unwrap_or(1)` fallback never
feeds an Available DI value. -/
theorem dmi_available_di_implies_atr_available (P : ℕ) (hP : 0 < P)
    (ops : List DmiOp) (s : DirectionalMovementIndex)
    (hreach : dmiRun (DirectionalMovementIndex.init P) ops = some s)
    (bar : Bar) (adx : ADX) (s' : DirectionalMovementIndex)
    (hnext : s.next bar = some (adx, s'))
    (hdi : adx.diPlusOpt.isSome ∨ adx.diMinusOpt.isSome) :
    ((s.atr.next bar).1).isSome := by
  have hInv := dmiRun_inv ops _ s (dmiInv_init P hP) hreach
  obtain ⟨hPpos, hp, hm, hatr, hnew, hold⟩ := hInv
  obtain ⟨hatr', hper', hisnew', hg⟩ := dmiNext_some s bar adx s' hnext
  have hatrfst : (s.atr.next bar).1 = (s.atr.rma.next ((s.atr.trueRange.next bar).1)).1 := rfl
  have hatrn := rmaWF_next s.period hPpos s.atr.rma ((s.atr.trueRange.next bar).1) hatr
  cases hsnew : s.isNew with
  | true =>
    rw [hsnew, getAdxIndicator_isNew] at hg
    simp only [Option.some.injEq, Prod.mk.injEq] at hg
    obtain ⟨hadx, _⟩ := hg
    rw [← hadx] at hdi
    simp at hdi
  | false =>
    rw [hsnew] at hg
    obtain ⟨dmp0, dmm0, hgf⟩ := getAdxIndicator_false bar ((s.atr.next bar).1)
      s.currentDi.low s.currentDi.high s.dmiPlus s.dmiMinus s.adx
    rw [hgf] at hg
    obtain ⟨_, _, hip, him⟩ := adxCore_shape _ _ _ _ _ _ _ _ _ _ hg
    obtain ⟨hrel1, hrel2⟩ := hold hsnew
    rw [hatrfst, rmaNext_fst]
    refine (hatrn.1.2.2).mpr ?_
    rw [hatrn.2]
    rcases hdi with hdi | hdi
    · have hds := hip hdi
      rw [rmaNext_fst] at hds
      have hpn := rmaWF_next s.period hPpos s.dmiPlus dmp0 hp
      have hcnt := (hpn.1.2.2).mp hds
      rw [hpn.2] at hcnt
      omega
    · have hds := him hdi
      rw [rmaNext_fst] at hds
      have hmn := rmaWF_next s.period hPpos s.dmiMinus dmm0 hm
      have hcnt := (hmn.1.2.2).mp hds
      rw [hmn.2] at hcnt
      omega

/-- C9 witness: period 1, one prior `next flatBar` call reaching
`dmiAfterOne`; on `riseBar` the call returns `+DI = 200/3` Available,
and the ATR output of that same call is Available (value `3`). -/
theorem dmi_available_di_implies_atr_available_witness :
    ((dmiAfterOne.atr.next riseBar).1).isSome :=
  dmi_available_di_implies_atr_available 1 (by decide) [DmiOp.next flatBar] dmiAfterOne
    (by norm_num [flatBar, mkBar, dmiRun, dmiAfterOne, DirectionalMovementIndex.init,
      DirectionalMovementIndex.next, getAdxIndicator, adxCore, mapDiDiv, ddiv, emptyDi,
      AverageTrueRange.next, AverageTrueRange.init, TrueRange.next, TrueRange.init,
      RollingMovingAverage.next, RollingMovingAverage.init,
      SimpleMovingAverage.next, SimpleMovingAverage.init, List.getD, max_def, abs])
    riseBar adxAfterTwo dmiAfterTwo
    (by norm_num [flatBar, riseBar, mkBar, dmiAfterOne, dmiAfterTwo, adxAfterTwo,
      DirectionalMovementIndex.next, getAdxIndicator, adxCore, mapDiDiv, ddiv,
      AverageTrueRange.next, TrueRange.next,
      RollingMovingAverage.next, RollingMovingAverage.init,
      SimpleMovingAverage.next, SimpleMovingAverage.init, List.getD, max_def, abs])
    (Or.inl rfl)
